import Mathlib

/-!
Verification of `draw_simplex.py` from the simplex-optimizer repository.

The script has three parts:
  * `read_simplex(filepath)`: opens the file read-only and scans it line by
    line.  An outer `while f.readline() != ''` loop consumes one line per
    iteration; a first inner `for` loop consumes lines until it sees a line
    in `['', 'Simplex\n']`; a second inner `for` loop consumes lines until
    `'End\n'`, splitting each line at commas and converting every field with
    `float`, appending the resulting list to the accumulator `points`.
  * `draw_simplex(points)`: three list comprehensions unpack each record as a
    triple `(x, y, z)` and a single `py.iplot` call renders one heatmap.
  * `main()`: `read_simplex('simplex.txt')` followed by `draw_simplex` on the
    returned list.

The embedding below models a text file by its content string; `pyLines`
yields the lines exactly as Python file iteration does (each line keeps its
trailing newline; a final line without a newline is kept as is; the empty
file has no lines).  Numeric values are represented exactly as rationals;
`pyFloat` models Python's built-in `float` on the plain decimal literals of
this file format (optional surrounding whitespace, optional sign, digits
with an optional fractional part); a string `float` would reject is mapped
to `none`, modelling the `ValueError` that Python raises.  Fallible code
returns `Option`: `none` is an uncaught exception.
-/

/-- The decimal digits `'0'`–`'9'`. -/
def isDigitCh (c : Char) : Bool := '0' ≤ c && c ≤ '9'

/-- Value of a digit string, most significant digit first. -/
def digitsToNat (cs : List Char) : Nat :=
  cs.foldl (fun n c => 10 * n + (c.toNat - '0'.toNat)) 0

/-- An unsigned decimal literal: `digits`, `digits.digits`, `digits.` or
`.digits` (at least one digit overall), read as an exact rational. -/
def parseDecimal (cs : List Char) : Option Rat :=
  let intPart := cs.takeWhile isDigitCh
  let rest := cs.dropWhile isDigitCh
  match rest with
  | [] => if intPart.isEmpty then none else some (digitsToNat intPart : Rat)
  | '.' :: frac =>
      if frac.all isDigitCh && !(intPart.isEmpty && frac.isEmpty) then
        some ((digitsToNat intPart : Rat) +
          (digitsToNat frac : Rat) / ((10 : Rat) ^ frac.length))
      else none
  | _ => none

/-- Models Python's built-in `float(s)` on the decimal literals this file
format uses: surrounding whitespace is stripped (so the `'\n'` kept by the
last comma-separated field is accepted), then an optional sign precedes an
unsigned decimal literal.  `none` models the `ValueError` raised on any
other string.  Exponents, `inf` and `nan` are not modelled; values are
exact rationals. -/
def pyFloat (s : String) : Option Rat :=
  let cs := ((s.toList.dropWhile Char.isWhitespace).reverse.dropWhile
    Char.isWhitespace).reverse
  match cs with
  | '-' :: rest => (parseDecimal rest).map (fun q => -q)
  | '+' :: rest => parseDecimal rest
  | _ => parseDecimal cs

/-- Helper for `splitComma`: accumulates the current field (reversed). -/
def splitCommaAux : List Char → List Char → List String
  | [], acc => [String.mk acc.reverse]
  | c :: cs, acc =>
      if c = ',' then String.mk acc.reverse :: splitCommaAux cs []
      else splitCommaAux cs (c :: acc)

/-- Models Python's `line.split(',')`: splits at every comma, keeping empty
fields, and yields `[""]` on the empty string. -/
def splitComma (s : String) : List String := splitCommaAux s.toList []

/-- Lines 35–36 of `draw_simplex.py`:
`vals = line.split(','); nums = [float(val) for val in vals]`.
The whole line parses only if every
comma-separated field converts; otherwise the `ValueError` propagates. -/
def parseLine (line : String) : Option (List Rat) :=
  (splitComma line).mapM pyFloat

/-- Helper for `pyLines`: accumulates the current line (reversed). -/
def pyLinesAux : List Char → List Char → List String
  | [], acc => if acc.isEmpty then [] else [String.mk acc.reverse]
  | c :: cs, acc =>
      if c = '\n' then String.mk (acc.reverse ++ ['\n']) :: pyLinesAux cs []
      else pyLinesAux cs (c :: acc)

/-- The lines of a text file's content, exactly as Python's `f.readline()`
and file iteration yield them: each line keeps its trailing `'\n'`, a final
line without a newline is kept as is, and the empty content has no lines. -/
def pyLines (s : String) : List String := pyLinesAux s.toList []

/-- The first inner `for` loop of `read_simplex` (lines 27–30): consume
lines until one equal to `''` or `'Simplex\n'` is consumed (`break`), or
the file is exhausted; returns the lines remaining after the loop. -/
def scanToSimplex : List String → List String
  | [] => []
  | l :: rest => if l = "" ∨ l = "Simplex\n" then rest else scanToSimplex rest

/-- The second inner `for` loop of `read_simplex` (lines 32–38): parse each
line into a point record until an `'End\n'` line is consumed (`break`) or
the file is exhausted; returns the records together with the remaining
lines.  A field `float` rejects aborts the whole call (`none`). -/
def readPoints : List String → Option (List (List Rat) × List String)
  | [] => some ([], [])
  | l :: rest =>
      if l = "End\n" then some ([], rest)
      else
        match parseLine l with
        | none => none
        | some nums =>
            (readPoints rest).map (fun pr => (nums :: pr.1, pr.2))

/-- The outer `while f.readline() != ''` loop of `read_simplex`
(lines 26–38).  Each iteration consumes at least the one line read by
`readline`, so the number of remaining lines strictly decreases; `fuel`
bounds the number of iterations and `read_simplex` supplies the line count,
which is always enough (the `0` case is unreachable there). -/
def simplexLoopF : Nat → List String → Option (List (List Rat))
  | _, [] => some []
  | 0, _ :: _ => none
  | fuel + 1, l :: rest =>
      if l = "" then some []
      else
        match readPoints (scanToSimplex rest) with
        | none => none
        | some (pts, rest2) =>
            (simplexLoopF fuel rest2).map (fun more => pts ++ more)

/-- The body of `read_simplex` on the content of the opened file: the accumulated
`points` list, or `none` when a conversion `ValueError` escapes. -/
def read_simplex (content : String) : Option (List (List Rat)) :=
  simplexLoopF (pyLines content).length (pyLines content)

/-- The file store: an association of paths to contents, modelling the flat
files the script touches. -/
structure FS where
  files : List (String × String)

/-- Models `open(filepath, 'r')` followed by reading: the content at the path, or
`none` for the `FileNotFoundError` on a missing file. -/
def fsRead (fs : FS) (path : String) : Option String :=
  (fs.files.find? (fun pr => pr.1 = path)).map Prod.snd

/-- The call `read_simplex(filepath)` against the file store: opens the file
read-only and scans it; the store is returned so that effects on it are
explicit — no statement of the function writes, so it passes through. -/
def read_simplex_fs (fs : FS) (path : String) :
    Option (List (List Rat)) × FS :=
  match fsRead fs path with
  | none => (none, fs)
  | some content => (read_simplex content, fs)

/-- The `(x, _, _)` unpacking of one record in the first comprehension of
`draw_simplex`: succeeds exactly on records of length three. -/
def fstOf : List Rat → Option Rat
  | [x, _, _] => some x
  | _ => none

/-- The `(_, y, _)` unpacking in the second comprehension of `draw_simplex`. -/
def sndOf : List Rat → Option Rat
  | [_, y, _] => some y
  | _ => none

/-- The `(_, _, z)` unpacking in the third comprehension of `draw_simplex`. -/
def trdOf : List Rat → Option Rat
  | [_, _, z] => some z
  | _ => none

/-- One list comprehension `[g(p) for p in points]` where the per-element
unpacking may raise: any failing element aborts the whole comprehension. -/
def listCompr (g : List Rat → Option Rat) : List (List Rat) → Option (List Rat)
  | [] => some []
  | p :: ps =>
      match g p, listCompr g ps with
      | some v, some vs => some (v :: vs)
      | _, _ => none

/-- The single `py.iplot(data, filename='basic-heatmap')` invocation of
`draw_simplex`, recorded with the three coordinate lists handed to the
`go.Heatmap` trace. -/
structure HeatmapCall where
  x : List Rat
  y : List Rat
  z : List Rat
  plotname : String
deriving DecidableEq

/-- The function `draw_simplex(points)` (lines 5–12): the three comprehensions extract
the first, second and third component of every record, then exactly one
plotting call is made with those lists; a record that is not a triple makes
the unpacking raise (`none`). -/
def draw_simplex (points : List (List Rat)) : Option HeatmapCall :=
  match listCompr fstOf points, listCompr sndOf points,
      listCompr trdOf points with
  | some x, some y, some z => some ⟨x, y, z, "basic-heatmap"⟩
  | _, _, _ => none

/-- The function `main()` (lines 42–45): `read_simplex('simplex.txt')`, a `print` (no
effect on the records), then `draw_simplex` on the returned list. -/
def mainFn (fs : FS) : Option HeatmapCall × FS :=
  match read_simplex_fs fs "simplex.txt" with
  | (none, fs1) => (none, fs1)
  | (some points, fs1) => (draw_simplex points, fs1)

theorem scanToSimplex_length (ls : List String) :
    (scanToSimplex ls).length ≤ ls.length := by
  induction ls with
  | nil => simp [scanToSimplex]
  | cons l rest ih =>
      simp only [scanToSimplex]
      split
      · simp
      · exact le_trans ih (by simp)

theorem scanToSimplex_sublist (ls : List String) :
    List.Sublist (scanToSimplex ls) ls := by
  induction ls with
  | nil => simp [scanToSimplex]
  | cons l rest ih =>
      simp only [scanToSimplex]
      split
      · exact List.sublist_cons_self l rest
      · exact ih.cons l

theorem scanToSimplex_decomp (ls : List String) :
    (∃ pre b, ls = pre ++ b :: scanToSimplex ls ∧
      (b = "" ∨ b = "Simplex\n")) ∨ scanToSimplex ls = [] := by
  induction ls with
  | nil => right; simp [scanToSimplex]
  | cons l rest ih =>
      by_cases h : l = "" ∨ l = "Simplex\n"
      · left
        refine ⟨[], l, ?_, h⟩
        simp [scanToSimplex, h]
      · have hscan : scanToSimplex (l :: rest) = scanToSimplex rest := by
          simp [scanToSimplex, h]
        rcases ih with ⟨pre, b, hdec, hb⟩ | hnil
        · left
          exact ⟨l :: pre, b, by rw [hscan]; exact congrArg (List.cons l) hdec, hb⟩
        · right; rw [hscan, hnil]

theorem readPoints_rem_length :
    ∀ ls pts rem, readPoints ls = some (pts, rem) → rem.length ≤ ls.length := by
  intro ls
  induction ls with
  | nil =>
      intro pts rem h
      simp only [readPoints, Option.some.injEq, Prod.mk.injEq] at h
      simp [← h.2]
  | cons l rest ih =>
      intro pts rem h
      simp only [readPoints] at h
      split at h
      · simp only [Option.some.injEq, Prod.mk.injEq] at h
        rw [← h.2]
        simp [Nat.le_succ_of_le]
      · split at h
        · exact absurd h (by simp)
        · rw [Option.map_eq_some'] at h
          obtain ⟨⟨pts', rem'⟩, hrec, heq⟩ := h
          cases heq
          exact Nat.le_succ_of_le (ih _ _ hrec)

theorem readPoints_decomp :
    ∀ ls pts rem, readPoints ls = some (pts, rem) →
      ∃ data tail, ls = data ++ tail ∧ (∀ x ∈ data, x ≠ "End\n") ∧
        List.Forall₂ (fun line p => parseLine line = some p) data pts ∧
        (tail = "End\n" :: rem ∨ tail = rem) := by
  intro ls
  induction ls with
  | nil =>
      intro pts rem h
      simp only [readPoints, Option.some.injEq, Prod.mk.injEq] at h
      refine ⟨[], [], by simp, by simp, ?_, Or.inr (by simp [h.2])⟩
      rw [← h.1]; exact List.Forall₂.nil
  | cons l rest ih =>
      intro pts rem h
      simp only [readPoints] at h
      split at h
      · rename_i hEnd
        simp only [Option.some.injEq, Prod.mk.injEq] at h
        refine ⟨[], "End\n" :: rest, by simp [hEnd], by simp, ?_,
          Or.inl (by rw [h.2])⟩
        rw [← h.1]; exact List.Forall₂.nil
      · rename_i hEnd
        split at h
        · exact absurd h (by simp)
        · rename_i nums hparse
          rw [Option.map_eq_some'] at h
          obtain ⟨⟨pts', rem'⟩, hrec, heq⟩ := h
          cases heq
          obtain ⟨data, tail, hls, hdata, hfa, htail⟩ := ih _ _ hrec
          refine ⟨l :: data, tail, by simp [hls], ?_,
            List.Forall₂.cons hparse hfa, htail⟩
          intro x hx
          rcases List.mem_cons.mp hx with rfl | hx
          · exact hEnd
          · exact hdata x hx

theorem forall₂_mem_right {α β : Type} {R : α → β → Prop} {as : List α}
    {bs : List β} {b : β} (h : List.Forall₂ R as bs) (hb : b ∈ bs) :
    ∃ a₁ a a₂, as = a₁ ++ a :: a₂ ∧ R a b := by
  induction h with
  | nil => cases hb
  | cons hR hfa ih =>
      rename_i x y l₁ l₂
      rcases List.mem_cons.mp hb with rfl | hb'
      · exact ⟨[], x, l₁, rfl, hR⟩
      · obtain ⟨a₁, a, a₂, heq, hRa⟩ := ih hb'
        exact ⟨x :: a₁, a, a₂, by rw [heq]; rfl, hRa⟩

theorem string_mk_ne_empty (cs : List Char) (h : cs ≠ []) :
    String.mk cs ≠ "" := by
  intro hcon
  rw [show ("" : String) = String.mk [] from rfl] at hcon
  injection hcon with hdata
  exact h hdata

theorem pyLinesAux_ne_empty :
    ∀ cs acc, ∀ x ∈ pyLinesAux cs acc, x ≠ "" := by
  intro cs
  induction cs with
  | nil =>
      intro acc x hx
      simp only [pyLinesAux] at hx
      split at hx
      · cases hx
      · rename_i hne
        rcases List.mem_singleton.mp hx with rfl
        exact string_mk_ne_empty _ (by
          intro hrev
          rw [List.reverse_eq_nil_iff] at hrev
          simp [hrev] at hne)
  | cons c cs ih =>
      intro acc x hx
      simp only [pyLinesAux] at hx
      split at hx
      · rcases List.mem_cons.mp hx with rfl | hx'
        · exact string_mk_ne_empty _ (by simp)
        · exact ih _ x hx'
      · exact ih _ x hx

theorem pyLines_ne_empty (s : String) : ∀ x ∈ pyLines s, x ≠ "" :=
  pyLinesAux_ne_empty s.toList []

/-- The relation between a source line and a returned record: the record is
what the line parses to. -/
def LineParses (line : String) (p : List Rat) : Prop := parseLine line = some p

theorem simplexLoopF_cons_empty (fuel : Nat) (l : String) (rest : List String)
    (hl : l = "") : simplexLoopF (fuel + 1) (l :: rest) = some [] := by
  simp [simplexLoopF, hl]

theorem simplexLoopF_cons_none (fuel : Nat) (l : String) (rest : List String)
    (hl : ¬l = "") (hrp : readPoints (scanToSimplex rest) = none) :
    simplexLoopF (fuel + 1) (l :: rest) = none := by
  simp [simplexLoopF, hl, hrp]

theorem simplexLoopF_cons_some (fuel : Nat) (l : String)
    (rest rest2 : List String) (pts1 : List (List Rat)) (hl : ¬l = "")
    (hrp : readPoints (scanToSimplex rest) = some (pts1, rest2)) :
    simplexLoopF (fuel + 1) (l :: rest) =
      (simplexLoopF fuel rest2).map (fun more => pts1 ++ more) := by
  simp [simplexLoopF, hl, hrp]

theorem simplexLoopF_order :
    ∀ fuel ls pts, ls.length ≤ fuel → simplexLoopF fuel ls = some pts →
      ∃ datalines, List.Sublist datalines ls ∧
        List.Forall₂ LineParses datalines pts := by
  intro fuel
  induction fuel with
  | zero =>
      intro ls pts hlen h
      cases ls with
      | nil =>
          simp only [simplexLoopF, Option.some.injEq] at h
          exact ⟨[], List.nil_sublist _, h ▸ List.Forall₂.nil⟩
      | cons l rest => exact absurd hlen (by simp)
  | succ fuel ih =>
      intro ls pts hlen h
      cases ls with
      | nil =>
          simp only [simplexLoopF, Option.some.injEq] at h
          exact ⟨[], List.nil_sublist _, h ▸ List.Forall₂.nil⟩
      | cons l rest =>
          by_cases hl : l = ""
          · rw [simplexLoopF_cons_empty fuel l rest hl,
              Option.some.injEq] at h
            exact ⟨[], List.nil_sublist _, h ▸ List.Forall₂.nil⟩
          · cases hrp : readPoints (scanToSimplex rest) with
            | none =>
                rw [simplexLoopF_cons_none fuel l rest hl hrp] at h
                cases h
            | some pr =>
                obtain ⟨pts1, rest2⟩ := pr
                rw [simplexLoopF_cons_some fuel l rest rest2 pts1 hl hrp,
                  Option.map_eq_some'] at h
                obtain ⟨pts2, hrec, hpts⟩ := h
                obtain ⟨data, tail, hls, hdataEnd, hfa, htail⟩ :=
                  readPoints_decomp _ _ _ hrp
                have hlen2 : rest2.length ≤ fuel := by
                  have h1 := readPoints_rem_length _ _ _ hrp
                  have h2 := scanToSimplex_length rest
                  simp only [List.length_cons] at hlen
                  omega
                obtain ⟨dl2, hsub2, hfa2⟩ := ih rest2 pts2 hlen2 hrec
                refine ⟨data ++ dl2, ?_, hpts ▸ List.rel_append hfa hfa2⟩
                have hsubtail : List.Sublist dl2 tail := by
                  rcases htail with rfl | rfl
                  · exact hsub2.trans (List.sublist_cons_self _ _)
                  · exact hsub2
                have hmain : List.Sublist (data ++ dl2) (scanToSimplex rest) := by
                  rw [hls]
                  exact hsubtail.append_left data
                exact (hmain.trans (scanToSimplex_sublist rest)).cons l

theorem simplexLoopF_between :
    ∀ fuel ls pts, ls.length ≤ fuel → (∀ x ∈ ls, x ≠ "") →
      simplexLoopF fuel ls = some pts → ∀ p ∈ pts,
      ∃ pre mid line tail,
        ls = pre ++ "Simplex\n" :: (mid ++ line :: tail) ∧
        (∀ x ∈ mid, x ≠ "End\n") ∧ line ≠ "End\n" ∧ parseLine line = some p := by
  intro fuel
  induction fuel with
  | zero =>
      intro ls pts hlen hne h p hp
      cases ls with
      | nil =>
          simp only [simplexLoopF, Option.some.injEq] at h
          rw [← h] at hp; cases hp
      | cons l rest => exact absurd hlen (by simp)
  | succ fuel ih =>
      intro ls pts hlen hne h p hp
      cases ls with
      | nil =>
          simp only [simplexLoopF, Option.some.injEq] at h
          rw [← h] at hp; cases hp
      | cons l rest =>
          by_cases hl : l = ""
          · exact absurd hl (hne l (by simp))
          · cases hrp : readPoints (scanToSimplex rest) with
            | none =>
                rw [simplexLoopF_cons_none fuel l rest hl hrp] at h
                cases h
            | some pr =>
                obtain ⟨pts1, rest2⟩ := pr
                rw [simplexLoopF_cons_some fuel l rest rest2 pts1 hl hrp,
                  Option.map_eq_some'] at h
                obtain ⟨pts2, hrec, hpts⟩ := h
                rcases scanToSimplex_decomp rest with ⟨pre0, b, hdec, hb⟩ | hnil
                · have hbne : b ≠ "" := by
                    apply hne b
                    rw [List.mem_cons, hdec]
                    simp
                  have hbS : b = "Simplex\n" := by
                    rcases hb with hb | hb
                    · exact absurd hb hbne
                    · exact hb
                  subst hbS
                  obtain ⟨data, tail, hls, hdataEnd, hfa, htail⟩ :=
                    readPoints_decomp _ _ _ hrp
                  rw [← hpts] at hp
                  rcases List.mem_append.mp hp with hp1 | hp2
                  · obtain ⟨d1, line, d2, hdata, hparse⟩ :=
                      forall₂_mem_right hfa hp1
                    refine ⟨l :: pre0, d1, line, d2 ++ tail, ?_, ?_, ?_, hparse⟩
                    · rw [hdec, hls, hdata]
                      simp [List.append_assoc]
                    · intro x hx
                      exact hdataEnd x (by rw [hdata]; simp [hx])
                    · exact hdataEnd line (by rw [hdata]; simp)
                  · have hsub2 : List.Sublist rest2 (l :: rest) := by
                      have h1 : List.Sublist rest2 tail := by
                        rcases htail with rfl | rfl
                        · exact List.sublist_cons_self _ _
                        · exact List.Sublist.refl _
                      have h2 : List.Sublist tail (scanToSimplex rest) := by
                        rw [hls]
                        exact List.sublist_append_right data tail
                      exact (((h1.trans h2).trans
                        (scanToSimplex_sublist rest)).cons l)
                    have hne2 : ∀ x ∈ rest2, x ≠ "" :=
                      fun x hx => hne x (hsub2.subset hx)
                    have hlen2 : rest2.length ≤ fuel := by
                      have h1 := readPoints_rem_length _ _ _ hrp
                      have h2 := scanToSimplex_length rest
                      simp only [List.length_cons] at hlen
                      omega
                    obtain ⟨pre', mid, line, tail', hdec', hmid, hlineEnd,
                      hparse⟩ := ih rest2 pts2 hlen2 hne2 hrec p hp2
                    rcases htail with rfl | rfl
                    · refine ⟨l :: (pre0 ++ "Simplex\n" ::
                        (data ++ "End\n" :: pre')), mid, line, tail', ?_,
                        hmid, hlineEnd, hparse⟩
                      rw [hdec, hls, hdec']
                      simp [List.append_assoc]
                    · refine ⟨l :: (pre0 ++ "Simplex\n" :: (data ++ pre')),
                        mid, line, tail', ?_, hmid, hlineEnd, hparse⟩
                      rw [hdec, hls, hdec']
                      simp [List.append_assoc]
                · rw [hnil] at hrp
                  simp only [readPoints, Option.some.injEq, Prod.mk.injEq] at hrp
                  obtain ⟨h1, h2⟩ := hrp
                  rw [← h2] at hrec
                  simp only [simplexLoopF, Option.some.injEq] at hrec
                  rw [← hpts, ← h1, ← hrec] at hp
                  cases hp

theorem fstOf_eq_none : ∀ (p : List Rat), p.length ≠ 3 → fstOf p = none
  | [], _ => rfl
  | [_], _ => rfl
  | [_, _], _ => rfl
  | [_, _, _], h => absurd rfl h
  | _ :: _ :: _ :: _ :: _, _ => rfl

theorem length_three_eq (q : List Rat) (h : q.length = 3) :
    ∃ a b c, q = [a, b, c] := by
  match q with
  | [a, b, c] => exact ⟨a, b, c, rfl⟩
  | [] => simp at h
  | [_] => simp at h
  | [_, _] => simp at h
  | _ :: _ :: _ :: _ :: _ =>
      simp only [List.length_cons] at h
      omega

theorem listCompr_eq_none (g : List Rat → Option Rat) :
    ∀ (points : List (List Rat)) (p : List Rat), p ∈ points → g p = none →
      listCompr g points = none := by
  intro points
  induction points with
  | nil => intro p hp; cases hp
  | cons q ps ih =>
      intro p hp hg
      rcases List.mem_cons.mp hp with rfl | hp'
      · simp [listCompr, hg]
      · cases hgq : g q <;> simp [listCompr, hgq, ih p hp' hg]

theorem listCompr_three (g : List Rat → Option Rat) (f : List Rat → Rat)
    (hgf : ∀ a b c, g [a, b, c] = some (f [a, b, c])) :
    ∀ points, (∀ p ∈ points, p.length = 3) →
      listCompr g points = some (points.map f) := by
  intro points
  induction points with
  | nil => intro _; rfl
  | cons q ps ih =>
      intro h
      obtain ⟨a, b, c, rfl⟩ := length_three_eq q (h q (by simp))
      have hps := ih (fun p hp => h p (by simp [hp]))
      simp [listCompr, hgf, hps]

/-- A two-simplex input file used to exercise the parser on concrete data:
the first (partially skipped) segment and a fully read second simplex. -/
def sampleContent : String := "A\nSimplex\n1,2,3\n4,5,6\nEnd\n"

/-- A file store holding `simplex.txt` with the sample content. -/
def sampleFS : FS := ⟨[("simplex.txt", sampleContent)]⟩

/-- C1: the claim states that `read_simplex` returns one record per data
line of every simplex, omitting none.  The code does not: on the
single-simplex file `"Simplex\n1,2,3\nEnd\n"` the `while` condition's
`readline` consumes the `Simplex` sentinel, so the first inner loop scans
the data lines looking for a further `Simplex` marker and exhausts the
file; the returned list is empty instead of `[[1, 2, 3]]`, contradicting
the function's own docstring. -/
theorem read_simplex_drops_first_simplex :
    read_simplex "Simplex\n1,2,3\nEnd\n" = some [] := by decide

/-- C2: every record returned by `read_simplex` comes from a line lying
strictly between a `Simplex` sentinel line and the next `End` sentinel
line: some `Simplex` line precedes it, no `End` line occurs from there up
to and including the record's line, and the record's line is itself
neither sentinel — so sentinel lines are never converted into records. -/
theorem read_simplex_between_sentinels (content : String)
    (pts : List (List Rat)) (p : List Rat)
    (h : read_simplex content = some pts) (hp : p ∈ pts) :
    ∃ pre mid line tail,
      pyLines content = pre ++ "Simplex\n" :: (mid ++ line :: tail) ∧
      (∀ x ∈ mid, x ≠ "End\n") ∧ line ≠ "End\n" ∧ line ≠ "Simplex\n" ∧
      parseLine line = some p := by
  obtain ⟨pre, mid, line, tail, hdec, hmid, hlE, hparse⟩ :=
    simplexLoopF_between (pyLines content).length (pyLines content) pts
      (le_refl _) (pyLines_ne_empty content) h p hp
  refine ⟨pre, mid, line, tail, hdec, hmid, hlE, ?_, hparse⟩
  intro hcon
  have hnone : parseLine "Simplex\n" = none := by decide
  rw [hcon, hnone] at hparse
  cases hparse

/-- C2 witness: the sample file, at the record `[4, 5, 6]`. -/
theorem read_simplex_between_sentinels_witness :
    ∃ pre mid line tail,
      pyLines sampleContent = pre ++ "Simplex\n" :: (mid ++ line :: tail) ∧
      (∀ x ∈ mid, x ≠ "End\n") ∧ line ≠ "End\n" ∧ line ≠ "Simplex\n" ∧
      parseLine line = some [4, 5, 6] :=
  read_simplex_between_sentinels sampleContent [[1, 2, 3], [4, 5, 6]]
    [4, 5, 6] (by decide) (by decide)

/-- C3: the claim states that a conversion failure on any data line between
the sentinels makes `read_simplex` raise and return nothing.  Because the
scanner skips the first simplex's data (the C1 bug), `float` is never
called on the unparseable line `foo` of the file
`"Simplex\nfoo\nEnd\nSimplex\n1,2,3\nEnd\n"`, and the call returns
normally instead of failing. -/
theorem read_simplex_skips_bad_line :
    read_simplex "Simplex\nfoo\nEnd\nSimplex\n1,2,3\nEnd\n" =
      some [[1, 2, 3]] := by decide

/-- C4: every element of a successfully returned list is a numeric point
record obtained from one source line, by splitting it at commas and
converting every field (`parseLine`); the `List Rat` typing records that
all components are numbers. -/
theorem read_simplex_records_from_lines (content : String)
    (pts : List (List Rat)) (p : List Rat)
    (h : read_simplex content = some pts) (hp : p ∈ pts) :
    ∃ line ∈ pyLines content, parseLine line = some p := by
  obtain ⟨dl, hsub, hfa⟩ :=
    simplexLoopF_order (pyLines content).length (pyLines content) pts
      (le_refl _) h
  obtain ⟨a₁, line, a₂, hdl, hparse⟩ := forall₂_mem_right hfa hp
  exact ⟨line, hsub.subset (by rw [hdl]; simp), hparse⟩

/-- C4 witness: the sample file, at the record `[1, 2, 3]`. -/
theorem read_simplex_records_from_lines_witness :
    ∃ line ∈ pyLines sampleContent, parseLine line = some [1, 2, 3] :=
  read_simplex_records_from_lines sampleContent [[1, 2, 3], [4, 5, 6]]
    [1, 2, 3] (by decide) (by decide)

/-- C5: `main` is exactly the two-step pipeline: whatever list
`read_simplex('simplex.txt')` returns is handed unchanged and in full to
`draw_simplex`; no transformation happens in between (the intervening
`print` does not alter the records). -/
theorem main_pipeline (fs : FS) (points : List (List Rat))
    (h : (read_simplex_fs fs "simplex.txt").1 = some points) :
    (mainFn fs).1 = draw_simplex points := by
  unfold mainFn
  cases hfs : read_simplex_fs fs "simplex.txt" with
  | mk r fs1 =>
      rw [hfs] at h
      have hr : r = some points := h
      subst hr
      rfl

/-- C5 witness: the sample store, whose `simplex.txt` parses to two
records. -/
theorem main_pipeline_witness :
    (mainFn sampleFS).1 = draw_simplex [[1, 2, 3], [4, 5, 6]] :=
  main_pipeline sampleFS [[1, 2, 3], [4, 5, 6]] (by decide)

/-- C6: on records that are all triples, `draw_simplex` extracts the first
components as the `x` list, the second as the `y` list and the third as
the `z` list, in record order, and issues the single plotting call (one
`HeatmapCall` value, with the `basic-heatmap` filename) with exactly those
three lists. -/
theorem draw_simplex_components (points : List (List Rat))
    (h : ∀ p ∈ points, p.length = 3) :
    draw_simplex points = some ⟨points.map (fun p => p.headI),
      points.map (fun p => p.tail.headI),
      points.map (fun p => p.tail.tail.headI), "basic-heatmap"⟩ := by
  unfold draw_simplex
  rw [listCompr_three fstOf (fun p => p.headI) (fun a b c => rfl) points h,
    listCompr_three sndOf (fun p => p.tail.headI) (fun a b c => rfl) points h,
    listCompr_three trdOf (fun p => p.tail.tail.headI) (fun a b c => rfl)
      points h]

/-- C6 witness: two triple records. -/
theorem draw_simplex_components_witness :
    draw_simplex [[1, 2, 3], [4, 5, 6]] =
      some ⟨[[1, 2, 3], [4, 5, 6]].map (fun p => p.headI),
        [[1, 2, 3], [4, 5, 6]].map (fun p => p.tail.headI),
        [[1, 2, 3], [4, 5, 6]].map (fun p => p.tail.tail.headI),
        "basic-heatmap"⟩ :=
  draw_simplex_components [[1, 2, 3], [4, 5, 6]] (by decide)

theorem read_simplex_fs_snd (fs : FS) (path : String) :
    (read_simplex_fs fs path).2 = fs := by
  unfold read_simplex_fs
  cases fsRead fs path <;> rfl

/-- C7: `read_simplex` only reads: the file store is identical after the
call (and after the whole `main` pipeline) to what it was before; the
program writes nothing back to the flat file.  In the embedding every
file-handle operation of the source is a read, so the store passes through
untouched. -/
theorem read_simplex_fs_preserves_store (fs : FS) (path : String) :
    (read_simplex_fs fs path).2 = fs ∧ (mainFn fs).2 = fs := by
  refine ⟨read_simplex_fs_snd fs path, ?_⟩
  unfold mainFn
  cases hfs : read_simplex_fs fs "simplex.txt" with
  | mk r fs1 =>
      have h2 : fs1 = fs := by
        have h3 := read_simplex_fs_snd fs "simplex.txt"
        rw [hfs] at h3
        exact h3
      cases r <;> simp [h2]

/-- C8: on the empty file there are no lines, the outer loop's first
`readline` yields `''`, neither scanning loop runs, and the initial empty
accumulator is returned without raising. -/
theorem read_simplex_empty_file : read_simplex "" = some [] := by decide

/-- C9: `read_simplex` preserves source order: the returned records
correspond, one for one and in the same relative order, to a sublist of
the file's lines (each record being what its line parses to). -/
theorem read_simplex_source_order (content : String)
    (pts : List (List Rat)) (h : read_simplex content = some pts) :
    ∃ datalines, List.Sublist datalines (pyLines content) ∧
      List.Forall₂ LineParses datalines pts :=
  simplexLoopF_order (pyLines content).length (pyLines content) pts
    (le_refl _) h

/-- C9 witness: the sample file with its two records. -/
theorem read_simplex_source_order_witness :
    ∃ datalines, List.Sublist datalines (pyLines sampleContent) ∧
      List.Forall₂ LineParses datalines [[1, 2, 3], [4, 5, 6]] :=
  read_simplex_source_order sampleContent [[1, 2, 3], [4, 5, 6]] (by decide)

/-- C10: `draw_simplex` requires every record to be a triple: the
`(x, _, _)` unpacking of any record of length other than three raises, so
the whole call yields no plot, even though the parser's docstring
describes an n-dimensional format. -/
theorem draw_simplex_requires_triples (points : List (List Rat))
    (p : List Rat) (hp : p ∈ points) (hlen : p.length ≠ 3) :
    draw_simplex points = none := by
  unfold draw_simplex
  rw [listCompr_eq_none fstOf points p hp (fstOf_eq_none p hlen)]

/-- C10 witness: a two-component record among the inputs. -/
theorem draw_simplex_requires_triples_witness :
    draw_simplex [[1, 2], [1, 2, 3]] = none :=
  draw_simplex_requires_triples [[1, 2], [1, 2, 3]] [1, 2] (by decide)
    (by decide)
